import Mathlib

/-
Verification of the core algorithms of the AI-Youtube-Shorts-Generator
repository against its natural-language specification.

Shallow embedding conventions:
- Python float timestamps, scores and pixel coordinates are modelled as
  exact rationals.
- Python int() truncation toward zero is modelled by pyInt, Python floor
  division // by Int.fdiv, Python list.sort (a stable sort) by
  List.insertionSort (Mathlib insertion sort is stable, hence extensionally
  equal to any stable sort for a total preorder).
- Effectful collaborators (the LLM oracle including its JSON parsing, the
  face detector) are passed as explicit inputs; a failing oracle call or a
  JSON parse failure is the oracle returning none.
- A Python exception escaping a function is modelled by Option/Except
  (none / Except.error).
-/

attribute [local semireducible] Rat.add Rat.sub Rat.mul Rat.inv

namespace ShortsGen

/-- A transcript segment as consumed by the highlight detectors.
Field stop models the Python dict key named end (a Lean keyword). -/
structure Segment where
  start : ℚ
  stop : ℚ
  text : String
deriving DecidableEq

/-- A (raw or validated) highlight dict of the chunk-based detector
src/Components/highlight_detector.py: keys start, end, text. -/
structure Highlight where
  start : ℚ
  stop : ℚ
  text : String
deriving DecidableEq

/-- HighlightDetector._chunk_segments: chunks = [segments[i:i+max_segments]
for i in range(0, len(segments), max_segments)]. -/
def chunkSegments {α : Type} (segments : List α) (max_segments : ℕ) : List (List α) :=
  (List.range' 0 ((segments.length + max_segments - 1) / max_segments) max_segments).map
    (fun i => (segments.drop i).take max_segments)

theorem chunkSegments_nil {α : Type} (m : ℕ) : chunkSegments ([] : List α) m = [] := by
  unfold chunkSegments
  have h : (List.length ([] : List α) + m - 1) / m = 0 := by
    simp only [List.length_nil, Nat.zero_add]
    rcases Nat.eq_zero_or_pos m with h0 | h0
    · subst h0; rfl
    · exact Nat.div_eq_of_lt (by omega)
  rw [h]
  rfl

theorem range'_map_shift {α : Type} (g : ℕ → α) (m : ℕ) :
    ∀ (n a : ℕ), (List.range' (m + a) n m).map g
      = (List.range' a n m).map (fun i => g (m + i)) := by
  intro n
  induction n with
  | zero => intro a; rfl
  | succ n ih =>
      intro a
      rw [List.range'_succ, List.range'_succ, List.map_cons, List.map_cons]
      have h1 : m + a + m = m + (a + m) := by omega
      rw [h1, ih (a + m)]

theorem chunkSegments_cons {α : Type} (s : List α) (m : ℕ) (hm : 1 ≤ m) (hs : s ≠ []) :
    chunkSegments s m = s.take m :: chunkSegments (s.drop m) m := by
  have hlen : 1 ≤ s.length := List.length_pos.mpr hs
  have key : (s.length + m - 1) / m = ((s.length - m) + m - 1) / m + 1 := by
    have e1 : s.length + m - 1 = (s.length - 1) + m := by omega
    rw [e1, Nat.add_div_right _ (by omega)]
    by_cases h : s.length ≤ m
    · have e2 : s.length - m = 0 := by omega
      rw [e2]
      have h1 : (s.length - 1) / m = 0 := Nat.div_eq_of_lt (by omega)
      have h2 : (0 + m - 1) / m = 0 := Nat.div_eq_of_lt (by omega)
      omega
    · have e3 : s.length - m + m - 1 = (s.length - m - 1) + m := by omega
      rw [e3, Nat.add_div_right _ (by omega)]
      have e4 : s.length - 1 = (s.length - m - 1) + m := by omega
      rw [e4, Nat.add_div_right _ (by omega)]
  unfold chunkSegments
  rw [key, List.range'_succ, List.map_cons]
  have hhead : (s.drop 0).take m = s.take m := by simp
  rw [hhead]
  have hlen2 : (s.drop m).length = s.length - m := by simp
  rw [hlen2]
  have htail : (List.range' (0 + m) ((s.length - m + m - 1) / m) m).map
        (fun i => (s.drop i).take m)
      = (List.range' 0 ((s.length - m + m - 1) / m) m).map
        (fun i => ((s.drop m).drop i).take m) := by
    rw [Nat.zero_add]
    have hshift := range'_map_shift (fun i => (s.drop i).take m) m
      ((s.length - m + m - 1) / m) 0
    rw [Nat.add_zero] at hshift
    rw [hshift]
    apply List.map_congr_left
    intro i _
    simp only [List.drop_drop]
  rw [htail]

theorem chunkSegments_flatten {α : Type} (s : List α) (m : ℕ) (hm : 1 ≤ m) :
    (chunkSegments s m).flatten = s := by
  suffices H : ∀ (n : ℕ) (t : List α), t.length ≤ n → (chunkSegments t m).flatten = t by
    exact H s.length s le_rfl
  intro n
  induction n with
  | zero =>
      intro t ht
      have : t = [] := by
        cases t with
        | nil => rfl
        | cons a l => simp at ht
      subst this
      rw [chunkSegments_nil]
      rfl
  | succ n ih =>
      intro t ht
      by_cases h : t = []
      · subst h; rw [chunkSegments_nil]; rfl
      · rw [chunkSegments_cons t m hm h, List.flatten_cons]
        have hdrop : (t.drop m).length ≤ n := by
          have h1 : 1 ≤ t.length := List.length_pos.mpr h
          have h2 : (t.drop m).length = t.length - m := by simp
          omega
        rw [ih (t.drop m) hdrop, List.take_append_drop]

theorem chunkSegments_sizes {α : Type} (s : List α) (m : ℕ) :
    ∀ c ∈ chunkSegments s m, c.length ≤ m := by
  intro c hc
  obtain ⟨i, _, rfl⟩ := List.mem_map.mp hc
  calc ((s.drop i).take m).length ≤ m := by
        rw [List.length_take]
        exact min_le_left _ _

/-- C4: for every list of transcript segments and every
max_segments_per_chunk at least 1, the chunker output is a partition:
flattening the chunks in order reproduces the input exactly, every chunk
has size at most max_segments_per_chunk, and the empty input yields the
empty sequence of chunks. -/
theorem c4_chunk_partition (s : List Segment) (m : ℕ) (hm : 1 ≤ m) :
    (chunkSegments s m).flatten = s
      ∧ (∀ c ∈ chunkSegments s m, c.length ≤ m)
      ∧ chunkSegments ([] : List Segment) m = [] :=
  ⟨chunkSegments_flatten s m hm, chunkSegments_sizes s m, chunkSegments_nil m⟩

/-- Witness for C4 at a concrete input: four segments, chunk size three. -/
theorem c4_chunk_partition_witness :
    1 ≤ 3
      ∧ ((chunkSegments [Segment.mk 0 1 "a", Segment.mk 1 2 "b",
            Segment.mk 2 3 "c", Segment.mk 3 4 "d"] 3).flatten
          = [Segment.mk 0 1 "a", Segment.mk 1 2 "b", Segment.mk 2 3 "c", Segment.mk 3 4 "d"]
        ∧ (∀ c ∈ chunkSegments [Segment.mk 0 1 "a", Segment.mk 1 2 "b",
              Segment.mk 2 3 "c", Segment.mk 3 4 "d"] 3, c.length ≤ 3)
        ∧ chunkSegments ([] : List Segment) 3 = []) :=
  ⟨by decide, c4_chunk_partition _ 3 (by decide)⟩

/-- Python str.strip as used on highlight text: drop whitespace from both
ends. Defined over the character list so it is kernel-computable. -/
def pyStrip (s : String) : String :=
  String.mk (((s.data.dropWhile Char.isWhitespace).reverse.dropWhile Char.isWhitespace).reverse)

/-- The extension scan of HighlightDetector._detect_highlights_chunk: walk
the chunk segments in order and return the first segment whose start is
strictly greater than the candidate end and whose absorption reaches the
5 second minimum (the loop body only breaks when both tests pass). -/
def extendCandidate (start stop : ℚ) (segments : List Segment) : Option Segment :=
  segments.find? (fun s => decide (stop < s.start) && decide ((5:ℚ) ≤ s.stop - start))

/-- The end/text update applied to a parsed candidate before the final
duration check (lines 125-134 of src/Components/highlight_detector.py). -/
def applyExtension (segments : List Segment) (h : Highlight) : ℚ × String :=
  if h.stop - h.start < 5 then
    match extendCandidate h.start h.stop segments with
    | some s => (s.stop, pyStrip h.text ++ " " ++ s.text)
    | none => (h.stop, pyStrip h.text)
  else (h.stop, pyStrip h.text)

/-- Validation of one parsed candidate (lines 121-144 of
src/Components/highlight_detector.py): optional single extension, then
keep the candidate iff 5 <= duration <= 60 and the text is non-empty. -/
def validateHighlight (segments : List Segment) (h : Highlight) : Option Highlight :=
  let ext := applyExtension segments h
  if 5 ≤ ext.1 - h.start ∧ ext.1 - h.start ≤ 60 ∧ ext.2 ≠ "" then
    some (Highlight.mk h.start ext.1 ext.2)
  else none

/-- HighlightDetector._detect_highlights_chunk with the Groq call and JSON
parse abstracted as the oracle input (none models an API error or a JSON
parse failure, both of which make the Python function return None). -/
def detectHighlightsChunk (oracle : List Segment → Option (List Highlight))
    (segments : List Segment) : Option (List Highlight) :=
  match oracle segments with
  | none => none
  | some raw =>
      let valid_highlights := raw.filterMap (validateHighlight segments)
      if valid_highlights.isEmpty then none else some valid_highlights

/-- The final selection of HighlightDetector.detect_highlights (lines
194-200): stable-sort by duration descending, take the 3 best, stable-sort
the selection by start ascending. -/
def selectBestHighlights (all_highlights : List Highlight) : List Highlight :=
  let best_highlights := (List.insertionSort
    (fun a b : Highlight => b.stop - b.start ≤ a.stop - a.start) all_highlights).take 3
  List.insertionSort (fun a b : Highlight => a.start ≤ b.start) best_highlights

/-- HighlightDetector.detect_highlights: chunk the segments, collect the
valid highlights of every chunk, and return the selection; None for empty
input or when no chunk produced a valid highlight. -/
def detectHighlights (oracle : List Segment → Option (List Highlight))
    (segments : List Segment) : Option (List Highlight) :=
  if segments.isEmpty then none
  else
    let chunks := chunkSegments segments 30
    let all_highlights := chunks.foldl (fun acc chunk =>
      match detectHighlightsChunk oracle chunk with
      | some hs => acc ++ hs
      | none => acc) []
    if all_highlights.isEmpty then none
    else some (selectBestHighlights all_highlights)

/-- A highlight record of the provider-based detector
src/Components/language/highlight_detector.py. -/
structure ProviderHighlight where
  start_time : ℚ
  end_time : ℚ
  text : String
  score : ℚ
  reason : String
deriving DecidableEq

/-- The validation filter of HighlightDetector._parse_highlights (lines
228-245): drop candidates with duration outside bounds or score below
min_score. -/
def validCandidates (data_highlights : List ProviderHighlight)
    (min_duration max_duration min_score : ℚ) : List ProviderHighlight :=
  data_highlights.filterMap (fun h =>
    if h.end_time - h.start_time < min_duration ∨ h.end_time - h.start_time > max_duration then
      none
    else if h.score < min_score then none
    else some h)

/-- HighlightDetector._parse_highlights after JSON decoding: filter, then
stable-sort by score descending and truncate to max_highlights (lines
246-249). There is no re-sort by start. -/
def parseHighlights (data_highlights : List ProviderHighlight)
    (min_duration max_duration min_score : ℚ) (max_highlights : ℕ) : List ProviderHighlight :=
  (List.insertionSort (fun a b : ProviderHighlight => b.score ≤ a.score)
    (validCandidates data_highlights min_duration max_duration min_score)).take max_highlights

/-- HighlightDetector.detect_highlights of the provider-based detector with
the provider response abstracted as input: empty transcript short-circuits
to an empty list, invalid parameters raise ValueError, otherwise the parsed
selection is returned. -/
def detectHighlightsProvider (transcript : List Segment) (response : List ProviderHighlight)
    (min_duration max_duration min_score : ℚ) (max_highlights : ℕ) :
    Except String (List ProviderHighlight) :=
  if transcript.isEmpty then Except.ok []
  else if max_duration ≤ min_duration then
    Except.error "min_duration deve ser menor que max_duration"
  else if ¬ (0 ≤ min_score ∧ min_score ≤ 1) then
    Except.error "min_score deve estar entre 0 e 1"
  else if max_highlights < 1 then
    Except.error "max_highlights deve ser maior que 0"
  else Except.ok (parseHighlights response min_duration max_duration min_score max_highlights)

/-- C2 (amended): for a candidate shorter than min_duration the scan looks
for the first segment starting strictly after the candidate end whose
absorption reaches min_duration; if none exists the candidate is discarded,
if one exists the end becomes that segment end and its text is appended
(kept iff the new duration is at most 60). -/
theorem c2_short_candidate_extension (segments : List Segment) (h : Highlight)
    (hshort : h.stop - h.start < 5) :
    (extendCandidate h.start h.stop segments = none → validateHighlight segments h = none)
      ∧ (∀ s, extendCandidate h.start h.stop segments = some s →
          validateHighlight segments h =
            if s.stop - h.start ≤ 60 then
              some (Highlight.mk h.start s.stop (pyStrip h.text ++ " " ++ s.text))
            else none) := by
  constructor
  · intro hnone
    unfold validateHighlight applyExtension
    rw [if_pos hshort, hnone]
    rw [if_neg]
    intro hc
    exact absurd hc.1 (by linarith)
  · intro s hsome
    have hpred := List.find?_some hsome
    simp only [Bool.and_eq_true, decide_eq_true_eq] at hpred
    unfold validateHighlight applyExtension
    rw [if_pos hshort, hsome]
    have htext : pyStrip h.text ++ " " ++ s.text ≠ "" := by
      intro hempty
      have hlen := congrArg String.length hempty
      rw [String.length_append, String.length_append] at hlen
      have hone : (" " : String).length = 1 := rfl
      have hzero : ("" : String).length = 0 := rfl
      omega
    by_cases h60 : s.stop - h.start ≤ 60
    · rw [if_pos h60, if_pos ⟨hpred.2, h60, htext⟩]
    · rw [if_neg h60, if_neg]
      intro hc
      exact h60 hc.2.1

/-- Witness for C2 at a concrete input: candidate 10-13, next segment
starting at 14 and ending at 16 allows the extension. -/
theorem c2_short_candidate_extension_witness :
    (Highlight.mk 10 13 "short").stop - (Highlight.mk 10 13 "short").start < 5
      ∧ ((extendCandidate (Highlight.mk 10 13 "short").start (Highlight.mk 10 13 "short").stop
            [Segment.mk 14 16 "tail"] = none →
            validateHighlight [Segment.mk 14 16 "tail"] (Highlight.mk 10 13 "short") = none)
        ∧ (∀ s, extendCandidate (Highlight.mk 10 13 "short").start
              (Highlight.mk 10 13 "short").stop [Segment.mk 14 16 "tail"] = some s →
            validateHighlight [Segment.mk 14 16 "tail"] (Highlight.mk 10 13 "short") =
              if s.stop - (Highlight.mk 10 13 "short").start ≤ 60 then
                some (Highlight.mk (Highlight.mk 10 13 "short").start s.stop
                  (pyStrip (Highlight.mk 10 13 "short").text ++ " " ++ s.text))
              else none)) :=
  ⟨by decide,
    c2_short_candidate_extension [Segment.mk 14 16 "tail"] (Highlight.mk 10 13 "short")
      (by decide)⟩

/-- C2 counterexample: the claim asserts that candidate start 10 end 13 with
next segment start 13 end 16 is extended and kept as start 10 end 16; the
code requires the segment start to be strictly greater than the candidate
end (13 > 13 is false), so the candidate is discarded instead. -/
theorem c2_counterexample :
    validateHighlight [Segment.mk 13 16 "next"] (Highlight.mk 10 13 "short") = none
      ∧ validateHighlight [Segment.mk 13 16 "next"] (Highlight.mk 10 13 "short")
          ≠ some (Highlight.mk 10 16 "short next") := by
  decide

theorem validateHighlight_bounds (segments : List Segment) (raw h : Highlight)
    (hv : validateHighlight segments raw = some h) :
    5 ≤ h.stop - h.start ∧ h.stop - h.start ≤ 60 := by
  simp only [validateHighlight] at hv
  split at hv
  case isTrue hcond =>
    obtain rfl : _ = h := Option.some.inj hv
    exact ⟨hcond.1, hcond.2.1⟩
  case isFalse => exact absurd hv (by simp)

theorem detectHighlightsChunk_mem (oracle : List Segment → Option (List Highlight))
    (c : List Segment) (hs : List Highlight) (h : Highlight)
    (hd : detectHighlightsChunk oracle c = some hs) (hm : h ∈ hs) :
    ∃ raw, validateHighlight c raw = some h := by
  cases horacle : oracle c with
  | none =>
      simp only [detectHighlightsChunk, horacle] at hd
      exact absurd hd (by simp)
  | some raws =>
      simp only [detectHighlightsChunk, horacle] at hd
      split at hd
      · exact absurd hd (by simp)
      · obtain rfl : _ = hs := Option.some.inj hd
        obtain ⟨a, _, ha⟩ := List.mem_filterMap.mp hm
        exact ⟨a, ha⟩

theorem foldl_collect_mem (oracle : List Segment → Option (List Highlight))
    (P : Highlight → Prop)
    (hstep : ∀ c hs h, detectHighlightsChunk oracle c = some hs → h ∈ hs → P h) :
    ∀ (chunks : List (List Segment)) (acc : List Highlight), (∀ h ∈ acc, P h) →
      ∀ h ∈ chunks.foldl (fun acc chunk =>
        match detectHighlightsChunk oracle chunk with
        | some hs => acc ++ hs
        | none => acc) acc, P h := by
  intro chunks
  induction chunks with
  | nil => intro acc hacc; exact hacc
  | cons c rest ih =>
      intro acc hacc
      rw [List.foldl_cons]
      apply ih
      cases hc : detectHighlightsChunk oracle c with
      | none => simpa [hc] using hacc
      | some hs =>
          simp only [hc]
          intro h hmem
          rcases List.mem_append.mp hmem with hmem | hmem
          · exact hacc h hmem
          · exact hstep c hs h hc hmem

theorem mem_selectBestHighlights (hs : List Highlight) :
    ∀ x ∈ selectBestHighlights hs, x ∈ hs := by
  intro x hx
  unfold selectBestHighlights at hx
  have h1 := (List.perm_insertionSort
    (fun a b : Highlight => a.start ≤ b.start) _).mem_iff.mp hx
  have h2 := List.mem_of_mem_take h1
  exact (List.perm_insertionSort
    (fun a b : Highlight => b.stop - b.start ≤ a.stop - a.start) hs).mem_iff.mp h2

theorem mem_validCandidates (response : List ProviderHighlight)
    (min_duration max_duration min_score : ℚ) (h : ProviderHighlight)
    (hm : h ∈ validCandidates response min_duration max_duration min_score) :
    min_duration ≤ h.end_time - h.start_time
      ∧ h.end_time - h.start_time ≤ max_duration
      ∧ min_score ≤ h.score := by
  unfold validCandidates at hm
  obtain ⟨a, _, ha⟩ := List.mem_filterMap.mp hm
  split at ha
  · exact absurd ha (by simp)
  case isFalse hdur =>
    split at ha
    · exact absurd ha (by simp)
    case isFalse hscore =>
      obtain rfl : a = h := Option.some.inj ha
      push_neg at hdur
      exact ⟨hdur.1, hdur.2, not_lt.mp hscore⟩

/-- C3: every Highlight in a final result respects the duration bounds:
5 <= end - start <= 60 in the chunk-based detector, and
min_duration <= end - start <= max_duration in the provider-based one. -/
theorem c3_duration_bounds :
    (∀ (oracle : List Segment → Option (List Highlight)) (segments : List Segment)
        (res : List Highlight) (h : Highlight),
        detectHighlights oracle segments = some res → h ∈ res →
        5 ≤ h.stop - h.start ∧ h.stop - h.start ≤ 60)
      ∧ (∀ (response : List ProviderHighlight) (min_duration max_duration min_score : ℚ)
          (max_highlights : ℕ) (h : ProviderHighlight),
          h ∈ parseHighlights response min_duration max_duration min_score max_highlights →
          min_duration ≤ h.end_time - h.start_time
            ∧ h.end_time - h.start_time ≤ max_duration) := by
  constructor
  · intro oracle segments res h hdet hmem
    simp only [detectHighlights] at hdet
    split at hdet
    · exact absurd hdet (by simp)
    · split at hdet
      · exact absurd hdet (by simp)
      · obtain rfl : _ = res := Option.some.inj hdet
        have hall := mem_selectBestHighlights _ h hmem
        revert hall
        refine foldl_collect_mem oracle
          (fun x => 5 ≤ x.stop - x.start ∧ x.stop - x.start ≤ 60) ?_
          (chunkSegments segments 30) [] (by simp) h
        intro c hs x hc hx
        obtain ⟨raw, hraw⟩ := detectHighlightsChunk_mem oracle c hs x hc hx
        exact validateHighlight_bounds c raw x hraw
  · intro response min_duration max_duration min_score max_highlights h hmem
    unfold parseHighlights at hmem
    have h1 := List.mem_of_mem_take hmem
    have h2 := (List.perm_insertionSort
      (fun a b : ProviderHighlight => b.score ≤ a.score) _).mem_iff.mp h1
    have h3 := mem_validCandidates response min_duration max_duration min_score h h2
    exact ⟨h3.1, h3.2.1⟩

/-- Witness for C3 at a concrete input: an oracle returning a single valid
10 second candidate. -/
theorem c3_duration_bounds_witness :
    detectHighlights (fun _ => some [Highlight.mk 0 10 "hello"]) [Segment.mk 0 10 "hello"]
        = some [Highlight.mk 0 10 "hello"]
      ∧ Highlight.mk 0 10 "hello" ∈ [Highlight.mk 0 10 "hello"]
      ∧ (5 ≤ (Highlight.mk 0 10 "hello").stop - (Highlight.mk 0 10 "hello").start
          ∧ (Highlight.mk 0 10 "hello").stop - (Highlight.mk 0 10 "hello").start ≤ 60) :=
  ⟨by decide, by decide,
    c3_duration_bounds.1 (fun _ => some [Highlight.mk 0 10 "hello"])
      [Segment.mk 0 10 "hello"] [Highlight.mk 0 10 "hello"] (Highlight.mk 0 10 "hello")
      (by decide) (by decide)⟩

theorem insertionSort_spec {α : Type} (r : α → α → Prop) [DecidableRel r]
    (htotal : ∀ a b, r a b ∨ r b a) (htrans : ∀ a b c, r a b → r b c → r a c)
    (l : List α) :
    (List.insertionSort r l).Sorted r ∧ (List.insertionSort r l).Perm l :=
  ⟨@List.sorted_insertionSort _ r _ ⟨htotal⟩ ⟨htrans⟩ l, List.perm_insertionSort r l⟩

theorem take_sorted_top {α : Type} (r : α → α → Prop) (l sorted : List α) (k : ℕ)
    (hsorted : sorted.Sorted r) (hperm : sorted.Perm l) :
    ∃ dropped, (sorted.take k ++ dropped).Perm l
      ∧ ∀ x ∈ sorted.take k, ∀ y ∈ dropped, r x y := by
  refine ⟨sorted.drop k, ?_, ?_⟩
  · rw [List.take_append_drop]
    exact hperm
  · have hp : List.Pairwise r (sorted.take k ++ sorted.drop k) := by
      rw [List.take_append_drop]
      exact hsorted
    exact fun x hx y hy => (List.pairwise_append.mp hp).2.2 x hx y hy

/-- C1 (amended): the chunk-based aggregator ranks by duration descending
(not by score: its candidates carry no score), selects up to 3, and
re-sorts the selection by start ascending, so its output is non-decreasing
in start; the provider-based aggregator ranks by score descending with
stable ties, truncates to max_highlights, and returns the selection in
score order without any re-sort by start. -/
theorem c1_selection_policy :
    (∀ hs : List Highlight,
        (selectBestHighlights hs).Sorted (fun a b => a.start ≤ b.start)
          ∧ (selectBestHighlights hs).length = min 3 hs.length
          ∧ ∃ dropped, (selectBestHighlights hs ++ dropped).Perm hs
              ∧ ∀ x ∈ selectBestHighlights hs, ∀ y ∈ dropped,
                  y.stop - y.start ≤ x.stop - x.start)
      ∧ (∀ (response : List ProviderHighlight) (min_duration max_duration min_score : ℚ)
            (max_highlights : ℕ),
          (parseHighlights response min_duration max_duration min_score
              max_highlights).Sorted (fun a b => b.score ≤ a.score)
            ∧ (parseHighlights response min_duration max_duration min_score
                max_highlights).length ≤ max_highlights
            ∧ ∃ dropped, (parseHighlights response min_duration max_duration min_score
                    max_highlights ++ dropped).Perm
                  (validCandidates response min_duration max_duration min_score)
                ∧ ∀ x ∈ parseHighlights response min_duration max_duration min_score
                    max_highlights, ∀ y ∈ dropped, y.score ≤ x.score) := by
  constructor
  · intro hs
    have hdur := insertionSort_spec
      (fun a b : Highlight => b.stop - b.start ≤ a.stop - a.start)
      (fun a b => le_total _ _) (fun a b c hab hbc => le_trans hbc hab) hs
    have hstart := insertionSort_spec (fun a b : Highlight => a.start ≤ b.start)
      (fun a b => le_total _ _) (fun a b c => le_trans)
      ((List.insertionSort
        (fun a b : Highlight => b.stop - b.start ≤ a.stop - a.start) hs).take 3)
    refine ⟨hstart.1, ?_, ?_⟩
    · simp only [selectBestHighlights]
      rw [hstart.2.length_eq, List.length_take, hdur.2.length_eq]
    · obtain ⟨dropped, hperm, hdom⟩ := take_sorted_top
        (fun a b : Highlight => b.stop - b.start ≤ a.stop - a.start) hs _ 3 hdur.1 hdur.2
      refine ⟨dropped, ?_, ?_⟩
      · exact (hstart.2.append_right dropped).trans hperm
      · intro x hx y hy
        exact hdom x (hstart.2.mem_iff.mp hx) y hy
  · intro response min_duration max_duration min_score max_highlights
    have hsort := insertionSort_spec (fun a b : ProviderHighlight => b.score ≤ a.score)
      (fun a b => le_total _ _) (fun a b c hab hbc => le_trans hbc hab)
      (validCandidates response min_duration max_duration min_score)
    refine ⟨?_, ?_, ?_⟩
    · exact List.Pairwise.sublist (List.take_sublist _ _) hsort.1
    · simp only [parseHighlights]
      rw [List.length_take]
      exact min_le_left _ _
    · obtain ⟨dropped, hperm, hdom⟩ := take_sorted_top
        (fun a b : ProviderHighlight => b.score ≤ a.score)
        (validCandidates response min_duration max_duration min_score) _
        max_highlights hsort.1 hsort.2
      exact ⟨dropped, hperm, hdom⟩

/-- Witness for C1 at a concrete input: the chunk-based selection of two
highlights is sorted by start. -/
theorem c1_selection_policy_witness :
    (selectBestHighlights [Highlight.mk 5 20 "a", Highlight.mk 0 30 "b"]).Sorted
      (fun a b => a.start ≤ b.start) :=
  (c1_selection_policy.1 [Highlight.mk 5 20 "a", Highlight.mk 0 30 "b"]).1

/-- C1 counterexample: in the provider-based detector two valid candidates
with distinct scores are returned in score order, not re-sorted by start:
the start sequence of the result is 50 then 0, which is not non-decreasing
in start as the claim asserts. -/
theorem c1_counterexample :
    (parseHighlights
        [ProviderHighlight.mk 50 70 "a" (9/10) "r1",
          ProviderHighlight.mk 0 20 "b" (8/10) "r2"]
        10 60 (7/10) 5).map (fun h => h.start_time) = [50, 0]
      ∧ ¬ ((50:ℚ) ≤ 0) := by
  decide

theorem foldl_chunks_none (oracle : List Segment → Option (List Highlight)) :
    ∀ (chunks : List (List Segment)) (acc : List Highlight),
      (∀ c ∈ chunks, detectHighlightsChunk oracle c = none) →
      chunks.foldl (fun acc chunk =>
        match detectHighlightsChunk oracle chunk with
        | some hs => acc ++ hs
        | none => acc) acc = acc := by
  intro chunks
  induction chunks with
  | nil => intro acc _; rfl
  | cons c rest ih =>
      intro acc hall
      rw [List.foldl_cons]
      have hc : detectHighlightsChunk oracle c = none := hall c (by simp)
      simp only [hc]
      exact ih acc (fun d hd => hall d (by simp [hd]))

/-- C9 (amended): the provider-based detector returns an empty list (a
valid ok result) for an empty transcript and when no candidate validates;
the chunk-based detector instead returns None, its documented failure
sentinel, for empty input or when no chunk yields a valid highlight, and
it does so without raising. -/
theorem c9_empty_results :
    (∀ oracle, detectHighlights oracle [] = none)
      ∧ (∀ oracle segments,
          (∀ chunk ∈ chunkSegments segments 30,
            detectHighlightsChunk oracle chunk = none) →
          detectHighlights oracle segments = none)
      ∧ (∀ response (min_duration max_duration min_score : ℚ) (max_highlights : ℕ),
          detectHighlightsProvider [] response min_duration max_duration min_score
            max_highlights = Except.ok [])
      ∧ (∀ response (min_duration max_duration min_score : ℚ) (max_highlights : ℕ),
          (∀ r ∈ response,
            r.end_time - r.start_time < min_duration
              ∨ r.end_time - r.start_time > max_duration
              ∨ r.score < min_score) →
          parseHighlights response min_duration max_duration min_score max_highlights = []) := by
  refine ⟨?_, ?_, ?_, ?_⟩
  · intro oracle
    simp [detectHighlights]
  · intro oracle segments hnone
    simp only [detectHighlights]
    by_cases hempty : segments.isEmpty
    · rw [if_pos hempty]
    · rw [if_neg hempty]
      rw [foldl_chunks_none oracle (chunkSegments segments 30) [] hnone]
      rfl
  · intro response min_duration max_duration min_score max_highlights
    rfl
  · intro response min_duration max_duration min_score max_highlights hall
    have hvc : validCandidates response min_duration max_duration min_score = [] := by
      unfold validCandidates
      rw [List.filterMap_eq_nil_iff]
      intro a ha
      by_cases hc : a.end_time - a.start_time < min_duration
          ∨ a.end_time - a.start_time > max_duration
      · rw [if_pos hc]
      · rcases hall a ha with h | h | h
        · exact absurd (Or.inl h) hc
        · exact absurd (Or.inr h) hc
        · rw [if_neg hc, if_pos h]
    unfold parseHighlights
    rw [hvc]
    simp

/-- Witness for C9 at a concrete input: an oracle that always fails on a
one-segment transcript makes the chunk-based detector return None. -/
theorem c9_empty_results_witness :
    (∀ chunk ∈ chunkSegments [Segment.mk 0 1 "a"] 30,
        detectHighlightsChunk (fun _ => none) chunk = none)
      ∧ detectHighlights (fun _ => none) [Segment.mk 0 1 "a"] = none :=
  ⟨by decide, c9_empty_results.2.1 (fun _ => none) [Segment.mk 0 1 "a"] (by decide)⟩

/-- C9 counterexample: on an empty transcript the chunk-based detector
returns None, which is its failure sentinel and not the empty sequence of
highlights the claim asserts. -/
theorem c9_counterexample :
    detectHighlights (fun _ => none) [] = none
      ∧ (none : Option (List Highlight)) ≠ some [] := by
  decide

/-- An axis-aligned rectangle given as x, y, width, height, the tuple shape
consumed by FaceDetector._calculate_iou. -/
structure Box where
  x : ℚ
  y : ℚ
  w : ℚ
  h : ℚ
deriving DecidableEq

/-- FaceDetector._calculate_iou (lines 265-310 of
src/Components/media/face_detector.py): convert to corner form, return 0.0
when the corner boxes are strictly separated, otherwise divide the
intersection area by the union area. The division is unguarded, so a zero
union raises ZeroDivisionError in Python, modelled here as none. -/
def calculateIou (box1 box2 : Box) : Option ℚ :=
  let x1 := max box1.x box2.x
  let y1 := max box1.y box2.y
  let x2 := min (box1.x + box1.w) (box2.x + box2.w)
  let y2 := min (box1.y + box1.h) (box2.y + box2.h)
  if x2 < x1 ∨ y2 < y1 then some 0
  else
    let intersection := (x2 - x1) * (y2 - y1)
    let area1 := (box1.x + box1.w - box1.x) * (box1.y + box1.h - box1.y)
    let area2 := (box2.x + box2.w - box2.x) * (box2.y + box2.h - box2.y)
    if area1 + area2 - intersection = 0 then none
    else some (intersection / (area1 + area2 - intersection))

/-- Disjointness of two (x, y, w, h) rectangles in the spec glossary sense:
no overlapping area, i.e. separated or touching along some axis. Modelled
from the spec wording, for comparison with calculateIou. -/
def disjointBoxes (b1 b2 : Box) : Prop :=
  b1.x + b1.w ≤ b2.x ∨ b2.x + b2.w ≤ b1.x ∨ b1.y + b1.h ≤ b2.y ∨ b2.y + b2.h ≤ b1.y

theorem calculateIou_self (b : Box) (hw : 0 < b.w) (hh : 0 < b.h) :
    calculateIou b b = some 1 := by
  have hx : b.x + b.w - b.x = b.w := by ring
  have hy : b.y + b.h - b.y = b.h := by ring
  simp only [calculateIou, min_self, max_self, hx, hy]
  rw [if_neg (by push_neg; constructor <;> linarith)]
  have harea : b.w * b.h + b.w * b.h - b.w * b.h = b.w * b.h := by ring
  rw [harea]
  have hpos : (0:ℚ) < b.w * b.h := mul_pos hw hh
  rw [if_neg (ne_of_gt hpos), div_self (ne_of_gt hpos)]

theorem calculateIou_comm (b1 b2 : Box) : calculateIou b1 b2 = calculateIou b2 b1 := by
  simp only [calculateIou]
  rw [max_comm b2.x b1.x, max_comm b2.y b1.y,
    min_comm (b2.x + b2.w) (b1.x + b1.w), min_comm (b2.y + b2.h) (b1.y + b1.h)]
  have hc : (b2.x + b2.w - b2.x) * (b2.y + b2.h - b2.y)
        + (b1.x + b1.w - b1.x) * (b1.y + b1.h - b1.y)
      = (b1.x + b1.w - b1.x) * (b1.y + b1.h - b1.y)
        + (b2.x + b2.w - b2.x) * (b2.y + b2.h - b2.y) := by ring
  rw [hc]

theorem calculateIou_nonneg_dims (b1 b2 : Box)
    (hno : ¬(min (b1.x + b1.w) (b2.x + b2.w) < max b1.x b2.x
      ∨ min (b1.y + b1.h) (b2.y + b2.h) < max b1.y b2.y)) :
    0 ≤ b1.w ∧ 0 ≤ b1.h ∧ 0 ≤ b2.w ∧ 0 ≤ b2.h := by
  push_neg at hno
  obtain ⟨hx, hy⟩ := hno
  have h1 : b1.x ≤ max b1.x b2.x := le_max_left _ _
  have h2 : b2.x ≤ max b1.x b2.x := le_max_right _ _
  have h3 : min (b1.x + b1.w) (b2.x + b2.w) ≤ b1.x + b1.w := min_le_left _ _
  have h4 : min (b1.x + b1.w) (b2.x + b2.w) ≤ b2.x + b2.w := min_le_right _ _
  have h5 : b1.y ≤ max b1.y b2.y := le_max_left _ _
  have h6 : b2.y ≤ max b1.y b2.y := le_max_right _ _
  have h7 : min (b1.y + b1.h) (b2.y + b2.h) ≤ b1.y + b1.h := min_le_left _ _
  have h8 : min (b1.y + b1.h) (b2.y + b2.h) ≤ b2.y + b2.h := min_le_right _ _
  refine ⟨by linarith, by linarith, by linarith, by linarith⟩

theorem calculateIou_inter_bounds (b1 b2 : Box)
    (hno : ¬(min (b1.x + b1.w) (b2.x + b2.w) < max b1.x b2.x
      ∨ min (b1.y + b1.h) (b2.y + b2.h) < max b1.y b2.y)) :
    0 ≤ (min (b1.x + b1.w) (b2.x + b2.w) - max b1.x b2.x)
        * (min (b1.y + b1.h) (b2.y + b2.h) - max b1.y b2.y)
      ∧ (min (b1.x + b1.w) (b2.x + b2.w) - max b1.x b2.x)
          * (min (b1.y + b1.h) (b2.y + b2.h) - max b1.y b2.y) ≤ b1.w * b1.h
      ∧ (min (b1.x + b1.w) (b2.x + b2.w) - max b1.x b2.x)
          * (min (b1.y + b1.h) (b2.y + b2.h) - max b1.y b2.y) ≤ b2.w * b2.h := by
  have hcopy := hno
  push_neg at hcopy
  obtain ⟨hx, hy⟩ := hcopy
  have hdx : 0 ≤ min (b1.x + b1.w) (b2.x + b2.w) - max b1.x b2.x := by linarith
  have hdy : 0 ≤ min (b1.y + b1.h) (b2.y + b2.h) - max b1.y b2.y := by linarith
  have hdx1 : min (b1.x + b1.w) (b2.x + b2.w) - max b1.x b2.x ≤ b1.w := by
    have h3 := min_le_left (b1.x + b1.w) (b2.x + b2.w)
    have h1 := le_max_left b1.x b2.x
    linarith
  have hdy1 : min (b1.y + b1.h) (b2.y + b2.h) - max b1.y b2.y ≤ b1.h := by
    have h7 := min_le_left (b1.y + b1.h) (b2.y + b2.h)
    have h5 := le_max_left b1.y b2.y
    linarith
  have hdx2 : min (b1.x + b1.w) (b2.x + b2.w) - max b1.x b2.x ≤ b2.w := by
    have h4 := min_le_right (b1.x + b1.w) (b2.x + b2.w)
    have h2 := le_max_right b1.x b2.x
    linarith
  have hdy2 : min (b1.y + b1.h) (b2.y + b2.h) - max b1.y b2.y ≤ b2.h := by
    have h8 := min_le_right (b1.y + b1.h) (b2.y + b2.h)
    have h6 := le_max_right b1.y b2.y
    linarith
  refine ⟨mul_nonneg hdx hdy, mul_le_mul hdx1 hdy1 hdy (by linarith),
    mul_le_mul hdx2 hdy2 hdy (by linarith)⟩

theorem calculateIou_total_of_pos (b1 b2 : Box) (hw : 0 < b1.w) (hh : 0 < b1.h) :
    ∃ v, calculateIou b1 b2 = some v ∧ 0 ≤ v ∧ v ≤ 1 := by
  by_cases hearly : min (b1.x + b1.w) (b2.x + b2.w) < max b1.x b2.x
      ∨ min (b1.y + b1.h) (b2.y + b2.h) < max b1.y b2.y
  · refine ⟨0, ?_, le_refl 0, by norm_num⟩
    simp only [calculateIou]
    rw [if_pos hearly]
  · obtain ⟨hinter0, hinter1, hinter2⟩ := calculateIou_inter_bounds b1 b2 hearly
    have ha1 : b1.x + b1.w - b1.x = b1.w := by ring
    have hb1 : b1.y + b1.h - b1.y = b1.h := by ring
    have ha2 : b2.x + b2.w - b2.x = b2.w := by ring
    have hb2 : b2.y + b2.h - b2.y = b2.h := by ring
    have hDpos : 0 < b1.w * b1.h + b2.w * b2.h
        - (min (b1.x + b1.w) (b2.x + b2.w) - max b1.x b2.x)
          * (min (b1.y + b1.h) (b2.y + b2.h) - max b1.y b2.y) := by
      have := mul_pos hw hh
      linarith
    refine ⟨_, ?_, div_nonneg hinter0 (le_of_lt hDpos), ?_⟩
    · simp only [calculateIou]
      rw [if_neg hearly, ha1, hb1, ha2, hb2, if_neg (ne_of_gt hDpos)]
    · rw [div_le_one hDpos]
      linarith

/-- C8: IoU of a positive-area box with itself is 1, IoU of two disjoint
positive-area boxes is 0, IoU is symmetric in its arguments, and every
value it returns on positive-area boxes lies in [0, 1]. -/
theorem c8_iou_properties :
    (∀ b : Box, 0 < b.w → 0 < b.h → calculateIou b b = some 1)
      ∧ (∀ b1 b2 : Box, 0 < b1.w → 0 < b1.h → 0 < b2.w → 0 < b2.h →
          disjointBoxes b1 b2 → calculateIou b1 b2 = some 0)
      ∧ (∀ b1 b2 : Box, calculateIou b1 b2 = calculateIou b2 b1)
      ∧ (∀ (b1 b2 : Box) (v : ℚ), 0 < b1.w → 0 < b1.h → 0 < b2.w → 0 < b2.h →
          calculateIou b1 b2 = some v → 0 ≤ v ∧ v ≤ 1) := by
  refine ⟨calculateIou_self, ?_, calculateIou_comm, ?_⟩
  · intro b1 b2 h1w h1h h2w h2h hdisj
    by_cases hearly : min (b1.x + b1.w) (b2.x + b2.w) < max b1.x b2.x
        ∨ min (b1.y + b1.h) (b2.y + b2.h) < max b1.y b2.y
    · simp only [calculateIou]
      rw [if_pos hearly]
    · have hnle := hearly
      push_neg at hnle
      obtain ⟨hxle, hyle⟩ := hnle
      have hinter : (min (b1.x + b1.w) (b2.x + b2.w) - max b1.x b2.x)
            * (min (b1.y + b1.h) (b2.y + b2.h) - max b1.y b2.y) = 0 := by
        rcases hdisj with h | h | h | h
        · have hle : min (b1.x + b1.w) (b2.x + b2.w) ≤ max b1.x b2.x :=
            le_trans (min_le_left _ _) (le_trans h (le_max_right _ _))
          have hz : min (b1.x + b1.w) (b2.x + b2.w) - max b1.x b2.x = 0 := by linarith
          rw [hz, zero_mul]
        · have hle : min (b1.x + b1.w) (b2.x + b2.w) ≤ max b1.x b2.x :=
            le_trans (min_le_right _ _) (le_trans h (le_max_left _ _))
          have hz : min (b1.x + b1.w) (b2.x + b2.w) - max b1.x b2.x = 0 := by linarith
          rw [hz, zero_mul]
        · have hle : min (b1.y + b1.h) (b2.y + b2.h) ≤ max b1.y b2.y :=
            le_trans (min_le_left _ _) (le_trans h (le_max_right _ _))
          have hz : min (b1.y + b1.h) (b2.y + b2.h) - max b1.y b2.y = 0 := by linarith
          rw [hz, mul_zero]
        · have hle : min (b1.y + b1.h) (b2.y + b2.h) ≤ max b1.y b2.y :=
            le_trans (min_le_right _ _) (le_trans h (le_max_left _ _))
          have hz : min (b1.y + b1.h) (b2.y + b2.h) - max b1.y b2.y = 0 := by linarith
          rw [hz, mul_zero]
      have ha1 : b1.x + b1.w - b1.x = b1.w := by ring
      have hb1 : b1.y + b1.h - b1.y = b1.h := by ring
      have ha2 : b2.x + b2.w - b2.x = b2.w := by ring
      have hb2 : b2.y + b2.h - b2.y = b2.h := by ring
      have hDpos : (0:ℚ) < b1.w * b1.h + b2.w * b2.h - 0 := by
        have := mul_pos h1w h1h
        have := mul_pos h2w h2h
        linarith
      simp only [calculateIou]
      rw [if_neg hearly, ha1, hb1, ha2, hb2, hinter, if_neg (ne_of_gt hDpos), zero_div]
  · intro b1 b2 v h1w h1h h2w h2h heq
    obtain ⟨v2, hv2, hlo, hhi⟩ := calculateIou_total_of_pos b1 b2 h1w h1h
    rw [heq] at hv2
    obtain rfl : v = v2 := Option.some.inj hv2.symm |>.symm
    exact ⟨hlo, hhi⟩

/-- Witness for C8 at a concrete input: the unit-scale square. -/
theorem c8_iou_properties_witness :
    0 < (Box.mk 0 0 10 10).w ∧ 0 < (Box.mk 0 0 10 10).h
      ∧ calculateIou (Box.mk 0 0 10 10) (Box.mk 0 0 10 10) = some 1 :=
  ⟨by decide, by decide, c8_iou_properties.1 (Box.mk 0 0 10 10) (by decide) (by decide)⟩

theorem calculateIou_total_of_pos_either (b1 b2 : Box)
    (hpos : (0 < b1.w ∧ 0 < b1.h) ∨ (0 < b2.w ∧ 0 < b2.h)) :
    ∃ v, calculateIou b1 b2 = some v ∧ 0 ≤ v ∧ v ≤ 1 := by
  rcases hpos with ⟨hw, hh⟩ | ⟨hw, hh⟩
  · exact calculateIou_total_of_pos b1 b2 hw hh
  · obtain ⟨v, hv, h0, h1⟩ := calculateIou_total_of_pos b2 b1 hw hh
    exact ⟨v, (calculateIou_comm b1 b2).trans hv, h0, h1⟩

/-- C10 (amended): when at least one rectangle has positive area (positive
width and height) the IoU computation is total with a value in [0, 1];
when both rectangles have zero area the call divides by zero (raises)
exactly when the degenerate corner boxes still overlap, while separated
degenerate boxes hit the early disjointness test and return 0.0 without
dividing. -/
theorem c10_iou_division_guard :
    (∀ b1 b2 : Box, (0 < b1.w ∧ 0 < b1.h) ∨ (0 < b2.w ∧ 0 < b2.h) →
        ∃ v, calculateIou b1 b2 = some v ∧ 0 ≤ v ∧ v ≤ 1)
      ∧ (∀ b1 b2 : Box, b1.w * b1.h = 0 → b2.w * b2.h = 0 →
          ¬(min (b1.x + b1.w) (b2.x + b2.w) < max b1.x b2.x
            ∨ min (b1.y + b1.h) (b2.y + b2.h) < max b1.y b2.y) →
          calculateIou b1 b2 = none)
      ∧ (∀ b1 b2 : Box,
          (min (b1.x + b1.w) (b2.x + b2.w) < max b1.x b2.x
            ∨ min (b1.y + b1.h) (b2.y + b2.h) < max b1.y b2.y) →
          calculateIou b1 b2 = some 0) := by
  refine ⟨calculateIou_total_of_pos_either, ?_, ?_⟩
  · intro b1 b2 hz1 hz2 hno
    obtain ⟨hinter0, hinter1, hinter2⟩ := calculateIou_inter_bounds b1 b2 hno
    have hinter : (min (b1.x + b1.w) (b2.x + b2.w) - max b1.x b2.x)
          * (min (b1.y + b1.h) (b2.y + b2.h) - max b1.y b2.y) = 0 := by
      rw [hz1] at hinter1
      linarith
    have ha1 : b1.x + b1.w - b1.x = b1.w := by ring
    have hb1 : b1.y + b1.h - b1.y = b1.h := by ring
    have ha2 : b2.x + b2.w - b2.x = b2.w := by ring
    have hb2 : b2.y + b2.h - b2.y = b2.h := by ring
    have hD : b1.w * b1.h + b2.w * b2.h - 0 = 0 := by
      rw [hz1, hz2]
      ring
    simp only [calculateIou]
    rw [if_neg hno, ha1, hb1, ha2, hb2, hinter, if_pos hD]
  · intro b1 b2 hearly
    simp only [calculateIou]
    rw [if_pos hearly]

/-- Witness for C10 at concrete inputs: a degenerate first box against a
positive second box is total with a value in [0, 1], and two overlapping
degenerate boxes make the computation divide by zero. -/
theorem c10_iou_division_guard_witness :
    ((0 < (Box.mk 0 0 0 0).w ∧ 0 < (Box.mk 0 0 0 0).h)
        ∨ (0 < (Box.mk (-1) (-1) 3 3).w ∧ 0 < (Box.mk (-1) (-1) 3 3).h))
      ∧ (∃ v, calculateIou (Box.mk 0 0 0 0) (Box.mk (-1) (-1) 3 3) = some v
          ∧ 0 ≤ v ∧ v ≤ 1)
      ∧ (Box.mk 0 0 0 0).w * (Box.mk 0 0 0 0).h = 0
      ∧ ¬(min ((Box.mk 0 0 0 0).x + (Box.mk 0 0 0 0).w)
            ((Box.mk 0 0 0 0).x + (Box.mk 0 0 0 0).w)
            < max (Box.mk 0 0 0 0).x (Box.mk 0 0 0 0).x
          ∨ min ((Box.mk 0 0 0 0).y + (Box.mk 0 0 0 0).h)
              ((Box.mk 0 0 0 0).y + (Box.mk 0 0 0 0).h)
            < max (Box.mk 0 0 0 0).y (Box.mk 0 0 0 0).y)
      ∧ calculateIou (Box.mk 0 0 0 0) (Box.mk 0 0 0 0) = none :=
  ⟨Or.inr ⟨by decide, by decide⟩,
    c10_iou_division_guard.1 (Box.mk 0 0 0 0) (Box.mk (-1) (-1) 3 3)
      (Or.inr ⟨by decide, by decide⟩),
    by decide, by decide,
    c10_iou_division_guard.2.1 (Box.mk 0 0 0 0) (Box.mk 0 0 0 0)
      (by decide) (by decide) (by decide)⟩

/-- C10 counterexample: both rectangles have zero area, yet the call does
not raise: the degenerate boxes are separated on the x axis, so the early
test returns 0.0 before any division, contradicting the claim that a pair
of zero-area rectangles always raises a division-by-zero error. -/
theorem c10_counterexample :
    (Box.mk 0 0 0 5).w * (Box.mk 0 0 0 5).h = 0
      ∧ (Box.mk 2 0 0 5).w * (Box.mk 2 0 0 5).h = 0
      ∧ calculateIou (Box.mk 0 0 0 5) (Box.mk 2 0 0 5) = some 0 := by
  decide

/-- FaceBox of src/Components/media/face_detector.py. -/
structure FaceBox where
  x : ℚ
  y : ℚ
  width : ℚ
  height : ℚ
  confidence : ℚ
  frame_idx : ℤ
  timestamp : ℚ
deriving DecidableEq

/-- FaceTrack of src/Components/media/face_detector.py. -/
structure FaceTrack where
  track_id : ℕ
  boxes : List FaceBox
  start_time : ℚ
  end_time : ℚ
  avg_confidence : ℚ
deriving DecidableEq

/-- The (x, y, width, height) tuple handed to _calculate_iou for a face. -/
def faceBoxGeom (f : FaceBox) : Box :=
  Box.mk f.x f.y f.width f.height

/-- The IoU value used inside track grouping. Python raises on a zero
union (see calculateIou), so the 0 default stands for that raising case
and is junk. The tracking theorem c7_track_association therefore carries
positive-dimension hypotheses on every face box, and its first conjunct
proves that under them calculateIou returns normally and agrees with this
value, so the junk branch is unreachable in its scope. -/
def iouOrZero (b1 b2 : Box) : ℚ :=
  (calculateIou b1 b2).getD 0

/-- Appending one face to a track (lines 246-248): the box list grows, the
end time becomes the face timestamp, and avg_confidence is recomputed as
the arithmetic mean of all box confidences. -/
def extendTrack (track : FaceTrack) (face : FaceBox) : FaceTrack :=
  { track with
    boxes := track.boxes ++ [face]
    end_time := face.timestamp
    avg_confidence := ((track.boxes ++ [face]).map (fun b => b.confidence)).sum
      / ((track.boxes ++ [face]).length : ℚ) }

/-- Eligibility of an existing track for a detection (lines 227-245): the
track has a last box, the time difference is within time_thresh, and the
IoU with the last box reaches iou_thresh. -/
def eligibleTrack (iou_thresh time_thresh : ℚ) (face : FaceBox) (track : FaceTrack) : Bool :=
  match track.boxes.getLast? with
  | none => false
  | some last_face =>
      !(decide (face.timestamp - last_face.timestamp > time_thresh))
        && decide (iouOrZero (faceBoxGeom last_face) (faceBoxGeom face) ≥ iou_thresh)

/-- The inner for-loop of _group_face_tracks: extend the first eligible
track (the loop breaks at the first match) or report that none exists. -/
def tryExtendTrack (iou_thresh time_thresh : ℚ) (face : FaceBox) :
    List FaceTrack → Option (List FaceTrack)
  | [] => none
  | track :: rest =>
      if eligibleTrack iou_thresh time_thresh face track then
        some (extendTrack track face :: rest)
      else (tryExtendTrack iou_thresh time_thresh face rest).map (track :: ·)

/-- A freshly created track for an unmatched detection (lines 253-261). -/
def newFaceTrack (track_id : ℕ) (face : FaceBox) : FaceTrack :=
  FaceTrack.mk track_id [face] face.timestamp face.timestamp face.confidence

/-- One iteration of the outer loop of _group_face_tracks over the state
(tracks so far, next fresh id). -/
def assignFace (iou_thresh time_thresh : ℚ) (st : List FaceTrack × ℕ) (face : FaceBox) :
    List FaceTrack × ℕ :=
  match tryExtendTrack iou_thresh time_thresh face st.1 with
  | some tracks => (tracks, st.2)
  | none => (st.1 ++ [newFaceTrack st.2 face], st.2 + 1)

/-- FaceDetector._group_face_tracks (lines 194-263): sort detections by
timestamp (stable) and fold them into tracks greedily. -/
def groupFaceTracks (faces : List FaceBox) (iou_thresh time_thresh : ℚ) : List FaceTrack :=
  if faces.isEmpty then []
  else ((List.insertionSort (fun a b : FaceBox => a.timestamp ≤ b.timestamp) faces).foldl
    (assignFace iou_thresh time_thresh) ([], 0)).1

theorem tryExtendTrack_eq_none (iou_thresh time_thresh : ℚ) (face : FaceBox) :
    ∀ tracks : List FaceTrack,
      (∀ t ∈ tracks, eligibleTrack iou_thresh time_thresh face t = false) →
      tryExtendTrack iou_thresh time_thresh face tracks = none := by
  intro tracks
  induction tracks with
  | nil => intro; rfl
  | cons t rest ih =>
      intro hall
      simp only [tryExtendTrack, hall t (by simp), Bool.false_eq_true, if_false]
      rw [ih (fun d hd => hall d (by simp [hd]))]
      rfl

theorem tryExtendTrack_first (iou_thresh time_thresh : ℚ) (face : FaceBox) :
    ∀ (pre : List FaceTrack) (t : FaceTrack) (post : List FaceTrack),
      (∀ u ∈ pre, eligibleTrack iou_thresh time_thresh face u = false) →
      eligibleTrack iou_thresh time_thresh face t = true →
      tryExtendTrack iou_thresh time_thresh face (pre ++ t :: post)
        = some (pre ++ extendTrack t face :: post) := by
  intro pre
  induction pre with
  | nil =>
      intro t post _ ht
      simp only [List.nil_append, tryExtendTrack, ht, if_true]
  | cons u rest ih =>
      intro t post hall ht
      simp only [List.cons_append, tryExtendTrack, hall u (by simp), Bool.false_eq_true,
        if_false, List.append_eq]
      rw [ih t post (fun d hd => hall d (by simp [hd])) ht]
      rfl

theorem tryExtendTrack_ids (iou_thresh time_thresh : ℚ) (face : FaceBox) :
    ∀ tracks tracks2 : List FaceTrack,
      tryExtendTrack iou_thresh time_thresh face tracks = some tracks2 →
      tracks2.map (fun t => t.track_id) = tracks.map (fun t => t.track_id) := by
  intro tracks
  induction tracks with
  | nil => intro t2 h; exact absurd h (by simp [tryExtendTrack])
  | cons t rest ih =>
      intro t2 h
      simp only [tryExtendTrack] at h
      split at h
      · obtain rfl : _ = t2 := Option.some.inj h
        simp [extendTrack]
      · cases hrec : tryExtendTrack iou_thresh time_thresh face rest with
        | none => rw [hrec] at h; exact absurd h (by simp)
        | some r2 =>
            rw [hrec] at h
            obtain rfl : t :: r2 = t2 := Option.some.inj h
            simp [ih r2 hrec]

theorem foldl_assign_ids (iou_thresh time_thresh : ℚ) :
    ∀ (faces : List FaceBox) (tracks : List FaceTrack) (ctr : ℕ),
      tracks.map (fun t => t.track_id) = List.range ctr →
      ((faces.foldl (assignFace iou_thresh time_thresh) (tracks, ctr)).1.map
          (fun t => t.track_id)
        = List.range (faces.foldl (assignFace iou_thresh time_thresh) (tracks, ctr)).2) := by
  intro faces
  induction faces with
  | nil => intro tracks ctr h; simpa using h
  | cons f rest ih =>
      intro tracks ctr h
      rw [List.foldl_cons]
      have hstep : (assignFace iou_thresh time_thresh (tracks, ctr) f).1.map
            (fun t => t.track_id)
          = List.range (assignFace iou_thresh time_thresh (tracks, ctr) f).2 := by
        unfold assignFace
        cases htry : tryExtendTrack iou_thresh time_thresh f tracks with
        | some tracks2 =>
            simp only [htry]
            rw [tryExtendTrack_ids iou_thresh time_thresh f tracks tracks2 htry, h]
        | none =>
            simp only [htry]
            simp only [List.map_append, List.map_cons, List.map_nil, h, newFaceTrack]
            rw [List.range_succ]
      rcases hst : assignFace iou_thresh time_thresh (tracks, ctr) f with ⟨tracks2, ctr2⟩
      rw [hst] at hstep
      exact ih tracks2 ctr2 hstep

/-- C7 (amended): restricted to detections whose boxes have positive width
and height (inputs on which the Python IoU call cannot raise; first
conjunct: for such boxes _calculate_iou returns normally and agrees with
the iouOrZero value used in the embedding): each detection is appended to
the first eligible track in creation order (eligible: last box within
time_thresh and IoU at least iou_thresh); a detection with no eligible
track starts a new track whose id is the current counter, which then
increments, so the track ids of a full run are exactly 0, 1, 2, ... in
creation order. Two consecutive detections satisfying both thresholds are
therefore grouped together exactly when no earlier-created track is also
eligible for the later detection. -/
theorem c7_track_association :
    (∀ b1 b2 : Box, 0 < b1.w → 0 < b1.h →
        calculateIou b1 b2 = some (iouOrZero b1 b2))
      ∧ (∀ (iou_thresh time_thresh : ℚ) (tracks : List FaceTrack) (ctr : ℕ) (face : FaceBox),
          0 < face.width → 0 < face.height →
          (∀ t ∈ tracks, ∀ b ∈ t.boxes, 0 < b.width ∧ 0 < b.height) →
          (∀ t ∈ tracks, eligibleTrack iou_thresh time_thresh face t = false) →
          assignFace iou_thresh time_thresh (tracks, ctr) face
            = (tracks ++ [newFaceTrack ctr face], ctr + 1))
      ∧ (∀ (iou_thresh time_thresh : ℚ) (pre : List FaceTrack) (t : FaceTrack)
            (post : List FaceTrack) (ctr : ℕ) (face : FaceBox),
          0 < face.width → 0 < face.height →
          (∀ u ∈ pre ++ t :: post, ∀ b ∈ u.boxes, 0 < b.width ∧ 0 < b.height) →
          (∀ u ∈ pre, eligibleTrack iou_thresh time_thresh face u = false) →
          eligibleTrack iou_thresh time_thresh face t = true →
          assignFace iou_thresh time_thresh (pre ++ t :: post, ctr) face
            = (pre ++ extendTrack t face :: post, ctr))
      ∧ (∀ (faces : List FaceBox) (iou_thresh time_thresh : ℚ),
          (∀ b ∈ faces, 0 < b.width ∧ 0 < b.height) →
          (groupFaceTracks faces iou_thresh time_thresh).map (fun t => t.track_id)
            = List.range (groupFaceTracks faces iou_thresh time_thresh).length) := by
  refine ⟨?_, ?_, ?_, ?_⟩
  · intro b1 b2 hw hh
    obtain ⟨v, hv, _, _⟩ := calculateIou_total_of_pos b1 b2 hw hh
    unfold iouOrZero
    rw [hv]
    rfl
  · intro iou_thresh time_thresh tracks ctr face _ _ _ hall
    unfold assignFace
    rw [tryExtendTrack_eq_none iou_thresh time_thresh face tracks hall]
  · intro iou_thresh time_thresh pre t post ctr face _ _ _ hall ht
    unfold assignFace
    rw [tryExtendTrack_first iou_thresh time_thresh face pre t post hall ht]
  · intro faces iou_thresh time_thresh _
    unfold groupFaceTracks
    by_cases hempty : faces.isEmpty
    · rw [if_pos hempty]
      rfl
    · rw [if_neg hempty]
      have h := foldl_assign_ids iou_thresh time_thresh
        (List.insertionSort (fun a b : FaceBox => a.timestamp ≤ b.timestamp) faces)
        [] 0 (by simp)
      rw [h]
      have hlen := congrArg List.length h
      simp only [List.length_map, List.length_range] at hlen
      rw [hlen]

/-- Witness for C7 at a concrete input: a positive-dimension detection with
no existing track opens track 0 and the counter becomes 1. -/
theorem c7_track_association_witness :
    0 < (FaceBox.mk 0 0 10 10 1 0 0).width
      ∧ 0 < (FaceBox.mk 0 0 10 10 1 0 0).height
      ∧ (∀ t ∈ ([] : List FaceTrack), ∀ b ∈ t.boxes, 0 < b.width ∧ 0 < b.height)
      ∧ (∀ t ∈ ([] : List FaceTrack),
          eligibleTrack (1/2) (1/2) (FaceBox.mk 0 0 10 10 1 0 0) t = false)
      ∧ assignFace (1/2) (1/2) ([], 0) (FaceBox.mk 0 0 10 10 1 0 0)
          = ([newFaceTrack 0 (FaceBox.mk 0 0 10 10 1 0 0)], 1) :=
  ⟨by decide, by decide, by decide, by decide,
    c7_track_association.2.1 (1/2) (1/2) [] 0 (FaceBox.mk 0 0 10 10 1 0 0)
      (by decide) (by decide) (by decide) (by decide)⟩

/-- C7 counterexample: positive-dimension detections A (frame 0, t=0),
B (frame 6, t=0.2) and C (frame 12, t=0.4) arrive in timestamp order; B
and C are consecutive, their IoU is 7/13 (at least 0.5, returned normally
by _calculate_iou) and their time difference is 0.2 (at most 0.5), yet B
sits in track 1 while C is absorbed into track 0 (whose last box A also
overlaps C), so the claim that two such consecutive detections are always
placed in the same track is false. -/
theorem c7_counterexample :
    (∀ b ∈ [FaceBox.mk 30 0 100 100 1 0 0, FaceBox.mk (-30) 0 100 100 1 6 (1/5),
          FaceBox.mk 0 0 100 100 1 12 (2/5)], 0 < b.width ∧ 0 < b.height)
      ∧ List.insertionSort (fun a b : FaceBox => a.timestamp ≤ b.timestamp)
          [FaceBox.mk 30 0 100 100 1 0 0, FaceBox.mk (-30) 0 100 100 1 6 (1/5),
            FaceBox.mk 0 0 100 100 1 12 (2/5)]
        = [FaceBox.mk 30 0 100 100 1 0 0, FaceBox.mk (-30) 0 100 100 1 6 (1/5),
            FaceBox.mk 0 0 100 100 1 12 (2/5)]
      ∧ calculateIou (faceBoxGeom (FaceBox.mk (-30) 0 100 100 1 6 (1/5)))
          (faceBoxGeom (FaceBox.mk 0 0 100 100 1 12 (2/5))) = some (7/13)
      ∧ (1/2 : ℚ) ≤ 7/13
      ∧ (FaceBox.mk 0 0 100 100 1 12 (2/5)).timestamp
          - (FaceBox.mk (-30) 0 100 100 1 6 (1/5)).timestamp ≤ 1/2
      ∧ (groupFaceTracks
            [FaceBox.mk 30 0 100 100 1 0 0, FaceBox.mk (-30) 0 100 100 1 6 (1/5),
              FaceBox.mk 0 0 100 100 1 12 (2/5)] (1/2) (1/2)).map
          (fun t => t.boxes.map (fun b => b.frame_idx))
        = [[0, 12], [6]] := by
  decide

/-- Python int() conversion of a float: truncation toward zero. -/
def pyInt (q : ℚ) : ℤ :=
  if 0 ≤ q then ⌊q⌋ else ⌈q⌉

/-- A face rectangle as returned by VideoProcessor._detect_faces: integer
pixel coordinates (x, y, w, h). -/
structure DetectedFace where
  x : ℤ
  y : ℤ
  w : ℤ
  h : ℤ
deriving DecidableEq

/-- The mutable planner state of VideoProcessor: position_history and
current_crop_x (None until the first smart-crop frame). -/
structure CropState where
  position_history : List ℤ
  current_crop_x : Option ℚ
deriving DecidableEq

def initialCropState : CropState :=
  CropState.mk [] none

/-- VideoProcessor._get_smart_crop (lines 119-186 of
src/Components/video_processor.py) with the face detector output for the
frame passed as input. Returns the updated state and the (x, y, w, h) crop
rectangle. The 9/16 constant models target_ratio. -/
def getSmartCrop (frame_width frame_height : ℕ) (faces : List DetectedFace)
    (st : CropState) : CropState × ℤ × ℤ × ℤ × ℤ :=
  let crop_width : ℤ := pyInt ((frame_height : ℚ) * (9 / 16))
  if (frame_width : ℤ) ≤ crop_width then
    (st, 0, 0, (frame_width : ℤ), (frame_height : ℤ))
  else
    let center_x : ℤ := Int.fdiv (frame_width : ℤ) 2
    let target_x : ℤ :=
      if faces.isEmpty then center_x
      else
        let face_positions := faces.map (fun f => f.x + Int.fdiv f.w 2)
        let sorted_positions := List.insertionSort (fun a b : ℤ => a ≤ b) face_positions
        let face_center_x := sorted_positions.getD (sorted_positions.length / 2) 0
        pyInt ((8 / 10 : ℚ) * (center_x : ℚ) + (2 / 10 : ℚ) * (face_center_x : ℚ))
    let initial_x : ℤ := max 0 (min (target_x - Int.fdiv crop_width 2)
      ((frame_width : ℤ) - crop_width))
    let cur0 : ℚ := match st.current_crop_x with
      | none => (initial_x : ℚ)
      | some c => c
    let history1 := st.position_history ++ [initial_x]
    let history2 := if 30 < history1.length then history1.tail else history1
    let weights : List ℚ := (List.range' 1 history2.length 1).map
      (fun i => (i : ℚ) / (history2.length : ℚ))
    let total_weight : ℚ := weights.sum
    let smooth_x : ℚ :=
      (List.zipWith (fun (x : ℤ) (w : ℚ) => (x : ℚ) * w) history2 weights).sum / total_weight
    let max_movement : ℚ := 5
    let target_movement := smooth_x - cur0
    let actual_movement := max (min target_movement max_movement) (-max_movement)
    let cur1 := cur0 + actual_movement
    let final_x : ℤ := max 0 (min (pyInt cur1) ((frame_width : ℤ) - crop_width))
    (CropState.mk history2 (some cur1), final_x, 0, crop_width, (frame_height : ℤ))

/-- One planning run: fold _get_smart_crop over the per-frame face lists,
collecting the crop rectangles. -/
def runSmartCrop (frame_width frame_height : ℕ) :
    CropState → List (List DetectedFace) → List (ℤ × ℤ × ℤ × ℤ)
  | _, [] => []
  | st, faces :: rest =>
      (getSmartCrop frame_width frame_height faces st).2
        :: runSmartCrop frame_width frame_height
            (getSmartCrop frame_width frame_height faces st).1 rest

/-- A planning run from the freshly initialised state, as a new
VideoProcessor does. -/
def planCropRun (frame_width frame_height : ℕ) (frames : List (List DetectedFace)) :
    List (ℤ × ℤ × ℤ × ℤ) :=
  runSmartCrop frame_width frame_height initialCropState frames

theorem getSmartCrop_narrow (frame_width frame_height : ℕ) (faces : List DetectedFace)
    (st : CropState) (hw : (frame_width : ℤ) ≤ pyInt ((frame_height : ℚ) * (9 / 16))) :
    getSmartCrop frame_width frame_height faces st
      = (st, 0, 0, (frame_width : ℤ), (frame_height : ℤ)) := by
  simp only [getSmartCrop]
  rw [if_pos hw]

theorem clamp_move_abs (c0 S : ℚ) : |c0 + max (min (S - c0) 5) (-5) - c0| ≤ 5 := by
  rw [abs_le]
  constructor
  · have h1 : (-5 : ℚ) ≤ max (min (S - c0) 5) (-5) := le_max_right _ _
    linarith
  · have h2 : max (min (S - c0) 5) (-5) ≤ 5 := max_le (min_le_right _ _) (by norm_num)
    linarith

theorem getSmartCrop_smart (frame_width frame_height : ℕ) (faces : List DetectedFace)
    (st : CropState)
    (hw : ¬ ((frame_width : ℤ) ≤ pyInt ((frame_height : ℚ) * (9 / 16)))) :
    ∃ (c1 : ℚ) (hist2 : List ℤ),
      getSmartCrop frame_width frame_height faces st
        = (CropState.mk hist2 (some c1),
            max 0 (min (pyInt c1) ((frame_width : ℤ) - pyInt ((frame_height : ℚ) * (9 / 16)))),
            0, pyInt ((frame_height : ℚ) * (9 / 16)), (frame_height : ℤ))
      ∧ (∀ c0, st.current_crop_x = some c0 → |c1 - c0| ≤ 5) := by
  simp only [getSmartCrop]
  rw [if_neg hw]
  refine ⟨_, _, rfl, ?_⟩
  intro c0 h0
  simp only [h0]
  exact clamp_move_abs c0 _

theorem pyInt_abs_sub_le (a b : ℚ) (h : |a - b| ≤ 5) : |pyInt a - pyInt b| ≤ 5 := by
  rw [abs_le] at h
  rw [abs_le]
  unfold pyInt
  by_cases ha : 0 ≤ a <;> by_cases hb : 0 ≤ b
  · rw [if_pos ha, if_pos hb]
    constructor
    · have hf : ⌊b⌋ ≤ ⌊a + ((5:ℤ):ℚ)⌋ := Int.floor_le_floor (by push_cast; linarith)
      rw [Int.floor_add_int] at hf
      omega
    · have hf : ⌊a⌋ ≤ ⌊b + ((5:ℤ):ℚ)⌋ := Int.floor_le_floor (by push_cast; linarith)
      rw [Int.floor_add_int] at hf
      omega
  · rw [if_pos ha, if_neg hb]
    push_neg at hb
    have h1 : (0:ℤ) ≤ ⌊a⌋ := Int.floor_nonneg.mpr ha
    have h2 : ⌈b⌉ ≤ (0:ℤ) := by
      have := Int.ceil_le.mpr (show b ≤ ((0:ℤ):ℚ) by push_cast; linarith)
      simpa using this
    constructor
    · omega
    · have h3 : (⌊a⌋:ℚ) ≤ a := Int.floor_le a
      have h4 : b ≤ (⌈b⌉:ℚ) := Int.le_ceil b
      have h5 : (⌊a⌋:ℚ) - (⌈b⌉:ℚ) ≤ 5 := by linarith
      exact_mod_cast h5
  · rw [if_neg ha, if_pos hb]
    push_neg at ha
    have h1 : ⌈a⌉ ≤ (0:ℤ) := by
      have := Int.ceil_le.mpr (show a ≤ ((0:ℤ):ℚ) by push_cast; linarith)
      simpa using this
    have h2 : (0:ℤ) ≤ ⌊b⌋ := Int.floor_nonneg.mpr hb
    constructor
    · have h3 : (⌊b⌋:ℚ) ≤ b := Int.floor_le b
      have h4 : a ≤ (⌈a⌉:ℚ) := Int.le_ceil a
      have h5 : (-5:ℚ) ≤ (⌈a⌉:ℚ) - (⌊b⌋:ℚ) := by linarith
      exact_mod_cast h5
    · omega
  · rw [if_neg ha, if_neg hb]
    constructor
    · have hf : ⌈b⌉ ≤ ⌈a + ((5:ℤ):ℚ)⌉ := Int.ceil_le_ceil (by push_cast; linarith)
      rw [Int.ceil_add_int] at hf
      omega
    · have hf : ⌈a⌉ ≤ ⌈b + ((5:ℤ):ℚ)⌉ := Int.ceil_le_ceil (by push_cast; linarith)
      rw [Int.ceil_add_int] at hf
      omega

theorem clamp_abs_sub_le (t1 t2 B : ℤ) (h : |t1 - t2| ≤ 5) :
    |max 0 (min t1 B) - max 0 (min t2 B)| ≤ 5 := by
  rw [abs_le] at h ⊢
  omega

theorem runSmartCrop_chain (frame_width frame_height : ℕ)
    (hw : ¬ ((frame_width : ℤ) ≤ pyInt ((frame_height : ℚ) * (9 / 16)))) :
    ∀ (frames : List (List DetectedFace)) (c : ℚ) (hist : List ℤ),
      List.Chain' (fun a b : ℤ × ℤ × ℤ × ℤ => |b.1 - a.1| ≤ 5)
        ((max 0 (min (pyInt c) ((frame_width : ℤ) - pyInt ((frame_height : ℚ) * (9 / 16)))),
            0, pyInt ((frame_height : ℚ) * (9 / 16)), (frame_height : ℤ))
          :: runSmartCrop frame_width frame_height (CropState.mk hist (some c)) frames) := by
  intro frames
  induction frames with
  | nil => intro c hist; simp [runSmartCrop]
  | cons f rest ih =>
      intro c hist
      obtain ⟨c1, hist2, heq, hmove⟩ :=
        getSmartCrop_smart frame_width frame_height f (CropState.mk hist (some c)) hw
      simp only [runSmartCrop]
      rw [heq]
      rw [List.chain'_cons]
      constructor
      · exact clamp_abs_sub_le (pyInt c1) (pyInt c) _ (pyInt_abs_sub_le c1 c (hmove c rfl))
      · exact ih c1 hist2

theorem runSmartCrop_narrow (frame_width frame_height : ℕ)
    (hw : (frame_width : ℤ) ≤ pyInt ((frame_height : ℚ) * (9 / 16))) :
    ∀ (frames : List (List DetectedFace)) (st : CropState),
      runSmartCrop frame_width frame_height st frames
        = frames.map (fun _ => (0, 0, (frame_width : ℤ), (frame_height : ℤ))) := by
  intro frames
  induction frames with
  | nil => intro st; rfl
  | cons f rest ih =>
      intro st
      simp only [runSmartCrop]
      rw [getSmartCrop_narrow frame_width frame_height f st hw]
      rw [List.map_cons, ih st]

theorem chain'_map_const {α β : Type} (P : β → β → Prop) (k : β) (hk : P k k) :
    ∀ l : List α, List.Chain' P (l.map (fun _ => k)) := by
  intro l
  induction l with
  | nil => exact List.chain'_nil
  | cons a rest ih =>
      cases rest with
      | nil => simp
      | cons b rest2 =>
          rw [List.map_cons]
          rw [List.map_cons] at ih ⊢
          rw [List.chain'_cons]
          exact ⟨hk, ih⟩

/-- C5: in one planning run with constant frame dimensions, the crop x
positions of any two consecutive frames differ by at most max_movement (5)
pixels in absolute value, whatever the face detections are. -/
theorem c5_bounded_velocity (frame_width frame_height : ℕ)
    (frames : List (List DetectedFace)) :
    List.Chain' (fun a b : ℤ × ℤ × ℤ × ℤ => |b.1 - a.1| ≤ 5)
      (planCropRun frame_width frame_height frames) := by
  by_cases hw : (frame_width : ℤ) ≤ pyInt ((frame_height : ℚ) * (9 / 16))
  · rw [planCropRun, runSmartCrop_narrow frame_width frame_height hw frames initialCropState]
    exact chain'_map_const _ _ (by simp) frames
  · cases frames with
    | nil => exact List.chain'_nil
    | cons f rest =>
        obtain ⟨c1, hist2, heq, _⟩ :=
          getSmartCrop_smart frame_width frame_height f initialCropState hw
        show List.Chain' _ (runSmartCrop frame_width frame_height initialCropState (f :: rest))
        simp only [runSmartCrop]
        rw [heq]
        exact runSmartCrop_chain frame_width frame_height hw rest c1 hist2

/-- C6: every crop rectangle returned by the planner satisfies
0 <= x <= frame_width - crop_width, where crop_width is the returned crop
width (the truncated 9/16 width in the smart branch, the full frame width
in the narrow branch). -/
theorem c6_crop_bounds (frame_width frame_height : ℕ) (faces : List DetectedFace)
    (st : CropState) :
    (0 ≤ (getSmartCrop frame_width frame_height faces st).2.1
      ∧ (getSmartCrop frame_width frame_height faces st).2.1
        ≤ (frame_width : ℤ) - (getSmartCrop frame_width frame_height faces st).2.2.2.1)
      ∧ (getSmartCrop frame_width frame_height faces st).2.2.2.1
        = (if (frame_width : ℤ) ≤ pyInt ((frame_height : ℚ) * (9 / 16)) then (frame_width : ℤ)
          else pyInt ((frame_height : ℚ) * (9 / 16))) := by
  by_cases hw : (frame_width : ℤ) ≤ pyInt ((frame_height : ℚ) * (9 / 16))
  · rw [getSmartCrop_narrow frame_width frame_height faces st hw, if_pos hw]
    dsimp only
    omega
  · obtain ⟨c1, hist2, heq, _⟩ := getSmartCrop_smart frame_width frame_height faces st hw
    rw [heq, if_neg hw]
    dsimp only
    push_neg at hw
    omega

end ShortsGen
